import Mathlib

/-!
Verification of the Task Tree Orchestration Engine specification against the
repository.  The repository ships the engine's documentation, interface
declarations and test notebooks with recorded outputs; the Python
implementation modules themselves (keyvalue_memory.py, task_context_manager.py,
query_tree_manager.py, node_history_manager.py, task_status_checker.py and the
orchestration loop) are not present, so each component is modelled here from
the specification, cross-checked against the recorded notebook outputs where
those exist.
-/

/- ===================== Versioned Key-Value Store ===================== -/
/-- Values held by the store.  String values correspond to TEXT content,
`obj` stands for a structured (JSON) payload and `bin` for binary data;
the tag distinguishes concrete payloads without modelling their insides. -/
inductive MemVal where
  | str (s : String)
  | obj (tag : Nat)
  | bin (tag : Nat)
deriving DecidableEq

/-- Content kind recorded with each entry, inferred from the value as the
recorded notebook runs show (TEXT for strings, JSON for structured data,
BINARY for bytes). -/
inductive MimeKind where
  | TEXT
  | JSON
  | BINARY
deriving DecidableEq

def mimeOf : MemVal → MimeKind
  | .str _ => .TEXT
  | .obj _ => .JSON
  | .bin _ => .BINARY

/-- First-match association-list lookup over string metadata. -/
def assocLookup : List (String × String) → String → Option String
  | [], _ => none
  | (a, b) :: t, k => if a = k then some b else assocLookup t k

/-- One stored entry: a value, its content kind and its metadata.  As in the
source, the key a value was written under lives inside the metadata as the
pair with field name variable_name; entries carry no separate key field. -/
structure Entry where
  value : MemVal
  mime : MimeKind
  metadata : List (String × String)
deriving DecidableEq

/-- The store is the ordered list of every write (insertion order). -/
structure KVStore where
  entries : List Entry
deriving DecidableEq

def emptyKV : KVStore := ⟨[]⟩

/-- Modelled from the spec: keyvalue_memory.py is absent from the sources.
`set` stamps the automatic pair variable_name = key in front of the
caller-supplied metadata and appends a new entry, exactly as every recorded
set in the memory test notebook logs it. -/
def mkEntry (k : String) (v : MemVal) (md : List (String × String)) : Entry :=
  ⟨v, mimeOf v, ("variable_name", k) :: md⟩

/-- Modelled from the spec (section 4.1): a cancelled operation performs no
state change; otherwise the write is appended, retaining history. -/
def kvSet (cancelled : Bool) (st : KVStore) (k : String) (v : MemVal)
    (md : List (String × String)) : KVStore :=
  if cancelled then st else ⟨st.entries ++ [mkEntry k v md]⟩

/-- All historical entries written under key `k`, recognised through the
stamped variable_name metadata, oldest first. -/
def keyEntries (st : KVStore) (k : String) : List Entry :=
  st.entries.filter (fun e => assocLookup e.metadata "variable_name" = some k)

/-- Modelled from the spec: `get` returns only the most recently written
value for the key (latest wins), matching the recorded log line "found n
item(s) (returning latest)"; absent key or cancelled call yields none. -/
def kvGet (cancelled : Bool) (st : KVStore) (k : String) : Option MemVal :=
  if cancelled then none else (keyEntries st k).getLast?.map Entry.value

/-- Modelled from the spec: like `kvGet` but returning the whole entry. -/
def kvGetWithDetails (cancelled : Bool) (st : KVStore) (k : String) :
    Option Entry :=
  if cancelled then none else (keyEntries st k).getLast?

/-- Modelled from the spec: `clear` discards all entries unless cancelled. -/
def kvClear (cancelled : Bool) (st : KVStore) : KVStore :=
  if cancelled then st else emptyKV

/-- A metadata-based query: a content value and a metadata filter, mirroring
the MemoryContent argument used by the notebook queries. -/
structure QueryContent where
  content : MemVal
  mime : MimeKind
  metadata : List (String × String)
deriving DecidableEq

/-- `filter` is covered by `entry`: every filter pair occurs in the entry
metadata with the same value. -/
def mdSuperset (filter entry : List (String × String)) : Bool :=
  filter.all (fun kv => assocLookup entry kv.1 = some kv.2)

/-- `needle` is an initial run of `hay`. -/
def charsLead : List Char → List Char → Bool
  | _, [] => true
  | [], _ :: _ => false
  | a :: as, b :: bs => a = b && charsLead as bs

/-- `needle` occurs contiguously somewhere inside `hay`. -/
def charsSub : List Char → List Char → Bool
  | [], nd => charsLead [] nd
  | a :: t, nd => charsLead (a :: t) nd || charsSub t nd

/-- Substring test on strings (the empty needle matches every string). -/
def strHas (hay needle : String) : Bool :=
  charsSub hay.toList needle.toList

/-- The query content matches the entry value when both are strings and the
query string occurs inside the entry string. -/
def isStrMatch (q e : MemVal) : Bool :=
  match q, e with
  | .str qs, .str es => strHas es qs
  | _, _ => false

/-- Modelled from the recorded notebook outputs: an entry answers a query
when its metadata covers the filter, or when its string content contains the
query content string.  This reproduces every recorded result count (3 in
Test 6, 4 in Advanced Test 2, 11 in Advanced Test 4), which pure
metadata-superset matching does not. -/
def matchesQ (qc : QueryContent) (e : Entry) : Bool :=
  isStrMatch qc.content e.value || mdSuperset qc.metadata e.metadata

/-- The scan the implementation performs over the whole history. -/
def queryLoop (qc : QueryContent) : List Entry → List Entry
  | [] => []
  | e :: es => if matchesQ qc e then e :: queryLoop qc es else queryLoop qc es

/-- Modelled from the spec and the recorded outputs: `query` scans the full
history in insertion order; a cancelled call returns no results and changes
nothing. -/
def kvQuery (cancelled : Bool) (qc : QueryContent) (st : KVStore) :
    List Entry :=
  if cancelled then [] else queryLoop qc st.entries

/- ===================== Concrete stores from the recorded tests ============ -/
/-- The store state at Test 6 of the memory test notebook: greeting written,
user_data written, greeting overwritten, sql_query written with custom
metadata. -/
def test6Store : KVStore :=
  kvSet false
    (kvSet false
      (kvSet false
        (kvSet false emptyKV "greeting" (.str "Hello, world!") [])
        "user_data" (.obj 0) [])
      "greeting" (.str "Hello, updated world!") [])
    "sql_query" (.str "SELECT ALL FROM users")
    [("created_by", "test_notebook"), ("priority", "high")]

/-- The metadata filter used by Test 6 of the notebook. -/
def test6Filter : QueryContent :=
  ⟨.str "", .TEXT, [("created_by", "test_notebook")]⟩

/-- The store state at Advanced Test 2 of the notebook: one JSON config,
three text entries, then three JSON execution results tagged with a status. -/
def advTest2Store : KVStore :=
  kvSet false
    (kvSet false
      (kvSet false
        (kvSet false
          (kvSet false
            (kvSet false
              (kvSet false emptyKV "db_config" (.obj 1) [])
              "schema_info" (.str "database schema text") [])
            "user_query" (.str "show users with purchases") [])
          "generated_sql" (.str "SELECT FROM users JOIN products") [])
        "execution_result_0" (.obj 2)
        [("execution_id", "exec_0"), ("status", "success")])
      "execution_result_1" (.obj 3)
      [("execution_id", "exec_1"), ("status", "error")])
    "execution_result_2" (.obj 4)
    [("execution_id", "exec_2"), ("status", "success")]

/-- The filter used by Advanced Test 2 of the notebook. -/
def advTest2Filter : QueryContent := ⟨.str "", .JSON, [("status", "error")]⟩

/-- Replay a list of writes (key, value, caller metadata) from a store. -/
def runSets (st : KVStore) : List (String × MemVal × List (String × String)) → KVStore
  | [] => st
  | w :: ws => runSets (kvSet false st w.1 w.2.1 w.2.2) ws

/- ===================== Node status and retry counter ===================== -/
/-- The node lifecycle states of section 3 of the specification. -/
inductive NodeStatus where
  | NO_RESULT
  | NEEDS_EVALUATION
  | GOOD
  | BAD
  | RETRIES_EXHAUSTED
deriving DecidableEq

/-- The retry-relevant view of a node: its retry count and its status. -/
structure RNode where
  retryCount : Nat
  status : NodeStatus
deriving DecidableEq

/-- Modelled from the spec: node_history_manager.py is absent from the
sources.  `incrementRetry` is total — incrementing past the configured
maximum raises no error — and returns the new count, transitioning the node
status to RETRIES_EXHAUSTED at the moment the count reaches the maximum. -/
def incrementRetry (maxRetries : Nat) (n : RNode) : Nat × RNode :=
  let c := n.retryCount + 1
  (c, { retryCount := c,
        status := if c = maxRetries then .RETRIES_EXHAUSTED else n.status })

/- ===================== Task context manager ===================== -/
/-- The overall task lifecycle states of section 3 of the specification. -/
inductive TaskStatus where
  | INITIALIZING
  | PROCESSING
  | COMPLETED
  | FAILED
deriving DecidableEq

/-- The task context record created once per incoming request. -/
structure TaskContext where
  taskId : String
  originalRequest : String
  targetName : String
  startTime : Nat
  status : TaskStatus
  evidence : Option String
deriving DecidableEq

inductive CtxErr where
  | AlreadyInit
  | InvalidTransition
deriving DecidableEq

/-- The transition table of section 4.2: INITIALIZING to PROCESSING, then
PROCESSING to COMPLETED or FAILED. -/
def validTransition : TaskStatus → TaskStatus → Bool
  | .INITIALIZING, .PROCESSING => true
  | .PROCESSING, .COMPLETED => true
  | .PROCESSING, .FAILED => true
  | _, _ => false

/-- Modelled from the spec: task_context_manager.py is absent from the
sources.  `updStatus` applies the transition table and rejects every other
transition with InvalidTransition without touching the context. -/
def updStatus (c : TaskContext) (s : TaskStatus) : Except CtxErr TaskContext :=
  if validTransition c.status s then .ok { c with status := s }
  else .error .InvalidTransition

def isOkE (r : Except CtxErr TaskContext) : Bool :=
  match r with
  | .ok _ => true
  | .error _ => false

/-- Progress measure on task statuses: INITIALIZING before PROCESSING before
the two terminal states. -/
def statusRank : TaskStatus → Nat
  | .INITIALIZING => 0
  | .PROCESSING => 1
  | .COMPLETED => 2
  | .FAILED => 2

/- ===================== Task tree manager ===================== -/
/-- A tree node record (section 3): parent pointer, ordered child list,
lifecycle status and the opaque result slots written by collaborators. -/
structure TNode where
  parentId : Option String
  childIds : List String
  status : NodeStatus
  intent : String
  evidence : Option String
  schemaLinkingResult : Option String
  decompositionResult : Option String
  generationResult : Option String
  evaluationResult : Option String
deriving DecidableEq

/-- A partial node update: only the non-structural fields, since callers
pass only the fields they are writing and the structural links are managed
exclusively by `addNode` (section 4.3). -/
structure NodeUpd where
  status : Option NodeStatus
  intent : Option String
  evidence : Option String
  schemaLinkingResult : Option String
  decompositionResult : Option String
  generationResult : Option String
  evaluationResult : Option String
deriving DecidableEq

/-- Merge an update into a node record: specified fields replace, the rest
are preserved, and the structural links are untouched. -/
def mergeUpd (u : NodeUpd) (n : TNode) : TNode :=
  { n with
    status := u.status.getD n.status
    intent := u.intent.getD n.intent
    evidence := u.evidence.or n.evidence
    schemaLinkingResult := u.schemaLinkingResult.or n.schemaLinkingResult
    decompositionResult := u.decompositionResult.or n.decompositionResult
    generationResult := u.generationResult.or n.generationResult
    evaluationResult := u.evaluationResult.or n.evaluationResult }

/-- The tree as the flat map of design note 9: root id, the focus pointer,
and the nodes as an association list in creation order. -/
structure QTreeFlat where
  rootId : String
  currentNodeId : Option String
  nodes : List (String × TNode)
deriving DecidableEq

/-- First-match lookup in the flat node map. -/
def lookupN : List (String × TNode) → String → Option TNode
  | [], _ => none
  | (a, n) :: t, i => if a = i then some n else lookupN t i

inductive TreeErr where
  | AlreadyInit
  | NoTree
  | ParentNotFound
  | TreeIntegrityError
  | NodeNotFound
deriving DecidableEq

def rootTNode (intent : String) : TNode :=
  ⟨none, [], .NO_RESULT, intent, none, none, none, none, none⟩

def childTNode (p intent : String) : TNode :=
  ⟨some p, [], .NO_RESULT, intent, none, none, none, none, none⟩

/-- The manager operations of section 4.3 (getters excluded: they do not
change state).  `addNode` carries the id generated for the new node. -/
inductive TreeOp where
  | initTree (rootId intent : String)
  | addNode (parentId newId intent : String)
  | updNode (nodeId : String) (u : NodeUpd)
  | setFocus (nodeId : String)

/-- Apply a transformation to the record stored under one key. -/
def mapAt (k : String) (f : TNode → TNode) (q : String × TNode) :
    String × TNode :=
  if q.1 = k then (q.1, f q.2) else q

/-- Append a child id to a node's ordered child list. -/
def extChild (c : String) (n : TNode) : TNode :=
  { n with childIds := n.childIds ++ [c] }

/-- Modelled from the spec: query_tree_manager.py is absent from the
sources.  `initTree` creates the root (failing when a tree exists),
`addNode` creates a child under an existing parent and appends its id to the
parent's childIds (rejecting an already-used id defensively as a
TreeIntegrityError), `updNode` merges non-structural fields, and `setFocus`
moves the focus pointer. -/
def applyOp : Option QTreeFlat → TreeOp → Except TreeErr (Option QTreeFlat)
  | some _, .initTree _ _ => .error .AlreadyInit
  | none, .initTree r intent =>
      .ok (some ⟨r, some r, [(r, rootTNode intent)]⟩)
  | none, _ => .error .NoTree
  | some t, .addNode p c intent =>
      match lookupN t.nodes p with
      | none => .error .ParentNotFound
      | some _ =>
          match lookupN t.nodes c with
          | some _ => .error .TreeIntegrityError
          | none =>
              .ok (some { t with
                nodes := t.nodes.map (mapAt p (extChild c)) ++
                  [(c, childTNode p intent)] })
  | some t, .updNode i u =>
      match lookupN t.nodes i with
      | none => .error .NodeNotFound
      | some _ =>
          .ok (some { t with nodes := t.nodes.map (mapAt i (mergeUpd u)) })
  | some t, .setFocus i =>
      match lookupN t.nodes i with
      | none => .error .NodeNotFound
      | some _ => .ok (some { t with currentNodeId := some i })

/-- Run a whole operation sequence from the initial empty state. -/
def applyOps (ops : List TreeOp) : Except TreeErr (Option QTreeFlat) :=
  ops.foldlM applyOp none

def idsOf (t : QTreeFlat) : List String := t.nodes.map Prod.fst

/-- Position of the first occurrence of an element in a list. -/
def idxOf : List String → String → Nat
  | [], _ => 0
  | a :: t, x => if a = x then 0 else idxOf t x + 1

/-- The edge relation of the tree: `b` is listed among the children of
`a`. -/
def EdgeT (t : QTreeFlat) (a b : String) : Prop :=
  ∃ n, lookupN t.nodes a = some n ∧ b ∈ n.childIds

/-- Reachability along child edges (one or more steps). -/
def ReachesT (t : QTreeFlat) : String → String → Prop :=
  Relation.TransGen (EdgeT t)

/-- Exactly one node of the tree has no parent. -/
def ExactlyOneRoot (t : QTreeFlat) : Prop :=
  t.nodes.countP (fun p => (p.2).parentId.isNone) = 1

/-- Every non-root node's id appears exactly once in its parent's child
list. -/
def BidirConsistent (t : QTreeFlat) : Prop :=
  ∀ p ∈ t.nodes, ∀ q, (p.2).parentId = some q →
    ∃ qn, lookupN t.nodes q = some qn ∧ qn.childIds.count p.1 = 1

/-- No node is reachable from itself via childIds. -/
def Acyclic (t : QTreeFlat) : Prop :=
  ∀ i, ¬ ReachesT t i i

/-- The strengthened induction invariant: ids are distinct, the root is the
unique parentless node, parent and child pointers agree in both directions,
child lists are duplicate-free, and every parent was created strictly
before its children (which yields acyclicity). -/
structure TreeInv (t : QTreeFlat) : Prop where
  nodup : (idsOf t).Nodup
  rootMem : t.rootId ∈ idsOf t
  rootIff : ∀ p ∈ t.nodes, ((p.2).parentId = none ↔ p.1 = t.rootId)
  parentChild : ∀ p ∈ t.nodes, ∀ q, (p.2).parentId = some q →
    ∃ qn, lookupN t.nodes q = some qn ∧ p.1 ∈ qn.childIds
  childParent : ∀ p ∈ t.nodes, ∀ c ∈ (p.2).childIds,
    ∃ cn, lookupN t.nodes c = some cn ∧ cn.parentId = some p.1
  childNodup : ∀ p ∈ t.nodes, ((p.2).childIds).Nodup
  parentBefore : ∀ p ∈ t.nodes, ∀ q, (p.2).parentId = some q →
    idxOf (idsOf t) q < idxOf (idsOf t) p.1

/-- The invariant lifted to the optional tree state. -/
def InvOpt : Option QTreeFlat → Prop
  | none => True
  | some t => TreeInv t

/-- A concrete operation sequence: create a root, then one child under it. -/
def c5ExOps : List TreeOp :=
  [.initTree "root" "q0", .addNode "root" "n1" "s1"]

/-- The tree that `c5ExOps` produces. -/
def c5ExTree : QTreeFlat :=
  ⟨"root", some "root",
    [("root", ⟨none, ["n1"], .NO_RESULT, "q0", none, none, none, none, none⟩),
     ("n1", ⟨some "root", [], .NO_RESULT, "s1", none, none, none, none, none⟩)]⟩

/- ===================== Status checker ===================== -/
/-- The checker's view of one node: its id, its status, whether the schema
linking and generation result slots are filled, and its retry count (read
from the history manager). -/
structure NodeInfo where
  nodeId : String
  status : NodeStatus
  hasSchemaLinking : Bool
  hasGeneration : Bool
  retryCount : Nat
deriving DecidableEq

/-- A node is unprocessed when its status is NO_RESULT, NEEDS_EVALUATION, or
BAD with retries remaining (section 4.5). -/
def unproc (m : Nat) (i : NodeInfo) : Bool :=
  match i.status with
  | .NO_RESULT => true
  | .NEEDS_EVALUATION => true
  | .BAD => decide (i.retryCount < m)
  | .GOOD => false
  | .RETRIES_EXHAUSTED => false

inductive RecommendedAction where
  | needsSchemaLinking
  | needsGeneration
  | needsEvaluation
  | needsRegeneration
deriving DecidableEq

/-- The action derived purely from the focus node's state (section 4.5):
schema linking when the slot is empty, generation next, evaluation for
NEEDS_EVALUATION, regeneration for BAD with retries left. -/
def actionOf (m : Nat) (i : NodeInfo) : Option RecommendedAction :=
  match i.status with
  | .NO_RESULT =>
      if i.hasSchemaLinking then some .needsGeneration
      else some .needsSchemaLinking
  | .NEEDS_EVALUATION => some .needsEvaluation
  | .BAD => if i.retryCount < m then some .needsRegeneration else none
  | .GOOD => none
  | .RETRIES_EXHAUSTED => none

/-- The decomposition tree as the checker walks it: each node carries its
info and its ordered children. -/
inductive QTree where
  | node (info : NodeInfo) (children : List QTree)

mutual

def preorder : QTree → List NodeInfo
  | .node i cs => i :: preorderF cs

def preorderF : List QTree → List NodeInfo
  | [] => []
  | t :: ts => preorder t ++ preorderF ts

end

mutual

/-- Modelled from the spec: task_status_checker.py is absent from the
sources.  Depth-first search for the first unprocessed node, trying the node
itself before its children, children in stored order. -/
def findFocus (m : Nat) : QTree → Option NodeInfo
  | .node i cs => if unproc m i then some i else findFocusF m cs

def findFocusF (m : Nat) : List QTree → Option NodeInfo
  | [] => none
  | t :: ts =>
      match findFocus m t with
      | some x => some x
      | none => findFocusF m ts

end

mutual

/-- Full scan deciding whether every node of the tree is processed. -/
def allProc (m : Nat) : QTree → Bool
  | .node i cs => !(unproc m i) && allProcF m cs

def allProcF (m : Nat) : List QTree → Bool
  | [] => true
  | t :: ts => allProc m t && allProcF m ts

end

inductive Outcome where
  | SUCCESS
  | PARTIAL
  | FAILURE
deriving DecidableEq

def rootInfo : QTree → NodeInfo
  | .node i _ => i

/-- Overall outcome (section 4.5): SUCCESS when every node reached GOOD,
PARTIAL when the root is GOOD but some node was abandoned, FAILURE
otherwise. -/
def outcomeOf (t : QTree) : Outcome :=
  if (preorder t).all (fun i => decide (i.status = .GOOD)) then .SUCCESS
  else if (rootInfo t).status = .GOOD then .PARTIAL
  else .FAILURE

structure StatusReport where
  complete : Bool
  focusNodeId : Option String
  recommendedAction : Option RecommendedAction
  overallOutcome : Outcome
deriving DecidableEq

/-- Modelled from the spec: the checker's pure analysis of the tree.  It is
stateless — a function of the tree alone — so identical trees always yield
identical reports. -/
def analyze (m : Nat) (t : QTree) : StatusReport :=
  { complete := allProc m t
    focusNodeId := (findFocus m t).map NodeInfo.nodeId
    recommendedAction := (findFocus m t).bind (actionOf m)
    overallOutcome := outcomeOf t }

/-- A two-node tree: unprocessed root with one GOOD child. -/
def c1ExTree : QTree :=
  .node ⟨"root", .NO_RESULT, false, false, 0⟩
    [.node ⟨"n1", .GOOD, true, true, 0⟩ []]

/- ===================== Orchestration loop ===================== -/
/-- A BAD evaluation (or an unparseable collaborator output) is recorded for
the focus node, consuming one retry, with the retry counter's exhaustion
side effect (sections 4.4, 4.6, 7). -/
def recordBadEval (m : Nat) (i : NodeInfo) : NodeInfo :=
  { i with
    retryCount := i.retryCount + 1
    status := if i.retryCount + 1 = m then .RETRIES_EXHAUSTED else .BAD }

/-- Modelled from the spec: apply one collaborator result to the focus node.
A positive result fills the slot the action targets (schema linking keeps
NO_RESULT, generation and regeneration move to NEEDS_EVALUATION, a good
evaluation moves to GOOD); any negative or malformed result is recorded as a
BAD evaluation. -/
def applyCollab (m : Nat) (a : RecommendedAction) (okRes : Bool)
    (i : NodeInfo) : NodeInfo :=
  match a, okRes with
  | .needsSchemaLinking, true => { i with hasSchemaLinking := true }
  | .needsGeneration, true =>
      { i with hasGeneration := true, status := .NEEDS_EVALUATION }
  | .needsRegeneration, true =>
      { i with hasGeneration := true, status := .NEEDS_EVALUATION }
  | .needsEvaluation, true => { i with status := .GOOD }
  | _, false => recordBadEval m i

/-- Dispatch the collaborator matching the focus node's recommended action;
`g` abstracts the collaborator answers of this iteration. -/
def dispatchNode (m : Nat) (g : RecommendedAction → Bool) (i : NodeInfo) :
    NodeInfo :=
  match actionOf m i with
  | some a => applyCollab m a (g a) i
  | none => i

/-- Modelled from the spec: one loop iteration acting on the node sequence
in pre-order.  The tree shape is constant during the loop (no decomposition
action exists in section 4.5), and by C1 the checker reads the tree only
through its pre-order listing, so the loop is modelled directly on that
listing: the first unprocessed node receives the collaborator result. -/
def stepList (m : Nat) (g : RecommendedAction → Bool) :
    List NodeInfo → List NodeInfo
  | [] => []
  | i :: is =>
      if unproc m i then dispatchNode m g i :: is
      else i :: stepList m g is

/-- The checker's completeness verdict on the node sequence. -/
def allDone (m : Nat) (ns : List NodeInfo) : Bool :=
  ns.all (fun i => !(unproc m i))

/-- Modelled from the spec (section 4.6): run the loop with the given fuel,
returning the iteration number (counted from `k + 1`) at which the checker
first reports complete, or none when the fuel runs out first.  `orc` gives
the collaborator answers at each iteration. -/
def loopList (m : Nat) (orc : Nat → RecommendedAction → Bool) :
    Nat → Nat → List NodeInfo → Option Nat
  | 0, _, _ => none
  | fuel + 1, k, ns =>
      if allDone m ns then some (k + 1)
      else loopList m orc fuel (k + 1) (stepList m (orc k) ns)

/-- Overall outcome of a completed node sequence, the root being the head of
the pre-order listing. -/
def listOutcome (ns : List NodeInfo) : Outcome :=
  if ns.all (fun i => decide (i.status = .GOOD)) then .SUCCESS
  else if ns.head?.map NodeInfo.status = some .GOOD then .PARTIAL
  else .FAILURE

/-- Modelled from the spec: the orchestration run under a global iteration
ceiling.  Exhausting the ceiling before completion terminates with
FAILURE. -/
def orchRun (m : Nat) (orc : Nat → RecommendedAction → Bool) :
    Nat → Nat → List NodeInfo → Outcome
  | 0, _, _ => .FAILURE
  | fuel + 1, k, ns =>
      if allDone m ns then listOutcome ns
      else orchRun m orc fuel (k + 1) (stepList m (orc k) ns)

/-- Remaining-dispatch potential of a node awaiting evaluation. -/
def phiNE (m r : Nat) : Nat := if r < m then 2 * (m - r) - 1 else 1

/-- Remaining-dispatch potential of one node: an upper bound on the number
of collaborator dispatches it can still receive. -/
def phi (m : Nat) (i : NodeInfo) : Nat :=
  match i.status with
  | .GOOD => 0
  | .RETRIES_EXHAUSTED => 0
  | .BAD => if i.retryCount < m then 2 * (m - i.retryCount) else 0
  | .NEEDS_EVALUATION => phiNE m i.retryCount
  | .NO_RESULT => (if i.hasSchemaLinking then 1 else 2) + phiNE m i.retryCount

/-- Total potential of the node sequence. -/
def PhiL (m : Nat) (ns : List NodeInfo) : Nat := (ns.map (phi m)).sum

/-- The single-node tree the counterexample run starts from. -/
def c8ExNode : NodeInfo := ⟨"root", .NO_RESULT, false, false, 0⟩

/-- Collaborator answers for the counterexample run: every action succeeds
except evaluation, which always judges the result BAD. -/
def c8ExOrc : Nat → RecommendedAction → Bool := fun _ a =>
  match a with
  | .needsEvaluation => false
  | _ => true

/- ===================== No physical deletion (C9) ===================== -/
/-- Membership of a node id in the optional tree state. -/
def memIds : Option QTreeFlat → String → Prop
  | none, _ => False
  | some t, i => i ∈ idsOf t

/-- A one-node tree used to witness C9. -/
def c9ExTree : QTreeFlat := ⟨"r0", some "r0", [("r0", rootTNode "q")]⟩

/-- A processed node used to witness the loop half of C9. -/
def c9ExNode : NodeInfo := ⟨"r0", .GOOD, true, true, 0⟩

/-- Two writes to the same key used to witness C10. -/
def c10ExWrites : List (String × MemVal × List (String × String)) :=
  [("alpha", .str "one", []), ("alpha", .str "two", [("source", "manual")])]

/- ===================== Theorems ===================== -/

/-- The modelled query reproduces the recorded count of Advanced Test 2
(4 matches: the three text entries by content, one JSON entry by metadata),
confirming the reconstruction of the matching rule. -/
theorem queryModelMatchesRecordedTest2 :
    (kvQuery false advTest2Filter advTest2Store).length = 4 := by decide

/- ===================== Store lemmas ===================== -/
/-- The stamped metadata always resolves variable_name to the written key,
even when the caller supplies a clashing pair, because the automatic pair
stands first. -/
theorem mkEntry_varname (k : String) (v : MemVal) (md : List (String × String)) :
    assocLookup (mkEntry k v md).metadata "variable_name" = some k := by
  simp [mkEntry, assocLookup]

theorem keyEntries_append_hit (st : KVStore) (k : String) (v : MemVal)
    (md : List (String × String)) :
    keyEntries ⟨st.entries ++ [mkEntry k v md]⟩ k =
      keyEntries st k ++ [mkEntry k v md] := by
  simp [keyEntries, List.filter_append, mkEntry_varname]

theorem kvGet_set_same (st : KVStore) (k : String) (v : MemVal)
    (md : List (String × String)) :
    kvGet false (kvSet false st k v md) k = some v := by
  have h : kvSet false st k v md = ⟨st.entries ++ [mkEntry k v md]⟩ := rfl
  rw [kvGet, if_neg (by simp), h, keyEntries_append_hit, List.getLast?_concat]
  rfl

/-- C3: store round-trip.  After `set(k, v1)`, `get(k)` returns `v1`; after a
second write `set(k, v2)`, `get(k)` returns `v2` (latest wins) while the
first write is still present in the store history. -/
theorem c3_store_roundtrip (st : KVStore) (k : String) (v1 v2 : MemVal)
    (md1 md2 : List (String × String)) :
    kvGet false (kvSet false st k v1 md1) k = some v1 ∧
    kvGet false (kvSet false (kvSet false st k v1 md1) k v2 md2) k = some v2 ∧
    mkEntry k v1 md1 ∈ (kvSet false (kvSet false st k v1 md1) k v2 md2).entries := by
  refine ⟨kvGet_set_same st k v1 md1, kvGet_set_same _ k v2 md2, ?_⟩
  simp [kvSet]

/-- C4 counterexample: on the store of notebook Test 6 the query with filter
created_by = test_notebook returns three entries — exactly as the recorded
output shows — among them the first greeting entry, whose metadata is not a
superset of the filter.  So `query` does not return only the
metadata-superset matches. -/
theorem c4_counterexample :
    (kvQuery false test6Filter test6Store).length = 3 ∧
    mkEntry "greeting" (.str "Hello, world!") [] ∈
      kvQuery false test6Filter test6Store ∧
    mdSuperset test6Filter.metadata
      (mkEntry "greeting" (.str "Hello, world!") []).metadata = false := by
  decide

/-- C4 amended: `query` scans the full history (all versions of all keys) in
insertion order and returns exactly the entries that either carry metadata
covering the filter or whose string content contains the query content
string. -/
theorem c4_query_amended (qc : QueryContent) (st : KVStore) :
    kvQuery false qc st = st.entries.filter (fun e => matchesQ qc e) := by
  show queryLoop qc st.entries = _
  induction st.entries with
  | nil => rfl
  | cons e es ih =>
      by_cases h : matchesQ qc e
      · simp [queryLoop, List.filter, h, ih]
      · simp only [Bool.not_eq_true] at h
        simp [queryLoop, List.filter, h, ih]

/-- C7: a cancellation signal that is already set at call time makes every
store operation a no-op returning an empty or absent result; no operation
signals an error (all are total functions of the state). -/
theorem c7_cancellation (st : KVStore) (k : String) (v : MemVal)
    (md : List (String × String)) (qc : QueryContent) :
    kvSet true st k v md = st ∧
    kvGet true st k = none ∧
    kvGetWithDetails true st k = none ∧
    kvQuery true qc st = [] ∧
    kvClear true st = st := by
  refine ⟨rfl, rfl, rfl, rfl, rfl⟩

theorem runSets_entries (ws : List (String × MemVal × List (String × String))) :
    ∀ st : KVStore,
      (runSets st ws).entries =
        st.entries ++ ws.map (fun w => mkEntry w.1 w.2.1 w.2.2) := by
  induction ws with
  | nil => intro st; simp [runSets]
  | cons w ws ih =>
      intro st
      simp [runSets, ih, kvSet]

/-- C10: after any sequence of `set` calls, the store holds one entry per
write; every entry carries the automatic variable_name pair equal to the key
it was written under; and a metadata query filtering on variable_name = k
surfaces every historical version of key k. -/
theorem c10_varname_stamp (ws : List (String × MemVal × List (String × String))) :
    (runSets emptyKV ws).entries = ws.map (fun w => mkEntry w.1 w.2.1 w.2.2) ∧
    (∀ e ∈ (runSets emptyKV ws).entries,
      ∃ k, assocLookup e.metadata "variable_name" = some k ∧
        ∃ v md, e = mkEntry k v md) ∧
    (∀ k, ∀ e ∈ (runSets emptyKV ws).entries,
      assocLookup e.metadata "variable_name" = some k →
        e ∈ kvQuery false ⟨.str "", .TEXT, [("variable_name", k)]⟩
            (runSets emptyKV ws)) := by
  have hent := runSets_entries ws emptyKV
  rw [show emptyKV.entries = [] from rfl, List.nil_append] at hent
  refine ⟨hent, ?_, ?_⟩
  · intro e he
    rw [hent] at he
    rcases List.mem_map.mp he with ⟨w, _, rfl⟩
    exact ⟨w.1, mkEntry_varname _ _ _, w.2.1, w.2.2, rfl⟩
  · intro k e he hvn
    rw [c4_query_amended]
    refine List.mem_filter.mpr ⟨he, ?_⟩
    simp [matchesQ, mdSuperset, assocLookup, hvn]

/-- C2: `incrementRetry` never decreases the count, returns the new count
(it is a total function, so it never raises, in particular not past the
maximum), and on a node not already exhausted it sets the status to
RETRIES_EXHAUSTED exactly when the new count reaches the maximum — never
before and never after. -/
theorem c2_retry_increment (m : Nat) (n : RNode)
    (h : n.status ≠ NodeStatus.RETRIES_EXHAUSTED) :
    n.retryCount ≤ (incrementRetry m n).1 ∧
    (incrementRetry m n).1 = n.retryCount + 1 ∧
    (incrementRetry m n).2.retryCount = (incrementRetry m n).1 ∧
    ((incrementRetry m n).2.status = NodeStatus.RETRIES_EXHAUSTED ↔
      n.retryCount + 1 = m) := by
  refine ⟨Nat.le_succ _, rfl, rfl, ?_⟩
  simp only [incrementRetry]
  by_cases hc : n.retryCount + 1 = m
  · simp [hc]
  · simp [hc, h]

/-- Witness for C2 at the default maximum of 3: a BAD node with two prior
retries becomes RETRIES_EXHAUSTED on its third retry. -/
theorem c2_retry_increment_witness :
    (2 : Nat) ≤ (incrementRetry 3 ⟨2, .BAD⟩).1 ∧
    (incrementRetry 3 ⟨2, .BAD⟩).1 = 2 + 1 ∧
    (incrementRetry 3 ⟨2, .BAD⟩).2.retryCount = (incrementRetry 3 ⟨2, .BAD⟩).1 ∧
    ((incrementRetry 3 ⟨2, .BAD⟩).2.status = NodeStatus.RETRIES_EXHAUSTED ↔
      2 + 1 = 3) :=
  c2_retry_increment 3 ⟨2, .BAD⟩ (by decide)

/-- C6: `updateStatus` succeeds exactly on the three tabulated transitions,
fails with InvalidTransition on every other pair, and every successful
update strictly increases the status rank, so the context status advances
monotonically and never regresses. -/
theorem c6_status_transitions (c : TaskContext) (s : TaskStatus) :
    (isOkE (updStatus c s) = true ↔
      ((c.status = .INITIALIZING ∧ s = .PROCESSING) ∨
       (c.status = .PROCESSING ∧ s = .COMPLETED) ∨
       (c.status = .PROCESSING ∧ s = .FAILED))) ∧
    (isOkE (updStatus c s) = false →
      updStatus c s = .error .InvalidTransition) ∧
    (∀ c', updStatus c s = .ok c' → statusRank c.status < statusRank c'.status) := by
  obtain ⟨i, q, d, t, st, ev⟩ := c
  cases st <;> cases s <;>
    simp [updStatus, validTransition, isOkE, statusRank]

/-- Witness for C6: from PROCESSING, moving to COMPLETED succeeds and
advances the rank. -/
theorem c6_status_transitions_witness :
    (isOkE (updStatus ⟨"t", "q", "db", 0, .PROCESSING, none⟩ .COMPLETED) = true ↔
      (((⟨"t", "q", "db", 0, .PROCESSING, none⟩ : TaskContext).status = .INITIALIZING ∧
          TaskStatus.COMPLETED = .PROCESSING) ∨
       ((⟨"t", "q", "db", 0, .PROCESSING, none⟩ : TaskContext).status = .PROCESSING ∧
          TaskStatus.COMPLETED = .COMPLETED) ∨
       ((⟨"t", "q", "db", 0, .PROCESSING, none⟩ : TaskContext).status = .PROCESSING ∧
          TaskStatus.COMPLETED = .FAILED))) ∧
    (isOkE (updStatus ⟨"t", "q", "db", 0, .PROCESSING, none⟩ .COMPLETED) = false →
      updStatus ⟨"t", "q", "db", 0, .PROCESSING, none⟩ .COMPLETED =
        .error .InvalidTransition) ∧
    (∀ c', updStatus ⟨"t", "q", "db", 0, .PROCESSING, none⟩ .COMPLETED = .ok c' →
      statusRank (⟨"t", "q", "db", 0, .PROCESSING, none⟩ : TaskContext).status <
        statusRank c'.status) :=
  c6_status_transitions ⟨"t", "q", "db", 0, .PROCESSING, none⟩ .COMPLETED

/- ===================== Tree manager lemmas ===================== -/
theorem lookupN_mem {ns : List (String × TNode)} {i : String} {n : TNode}
    (h : lookupN ns i = some n) : (i, n) ∈ ns := by
  induction ns with
  | nil => simp [lookupN] at h
  | cons p t ih =>
      obtain ⟨a, m⟩ := p
      by_cases ha : a = i
      · subst ha
        simp [lookupN] at h
        simp [h]
      · simp [lookupN, ha] at h
        exact List.mem_cons_of_mem _ (ih h)

theorem lookupN_isSome_of_mem {ns : List (String × TNode)} {i : String}
    {n : TNode} (h : (i, n) ∈ ns) : ∃ m, lookupN ns i = some m := by
  induction ns with
  | nil => simp at h
  | cons p t ih =>
      obtain ⟨a, m⟩ := p
      by_cases ha : a = i
      · exact ⟨m, by simp [lookupN, ha]⟩
      · rcases List.mem_cons.mp h with hh | hh
        · cases hh
          simp at ha
        · rcases ih hh with ⟨m', hm'⟩
          exact ⟨m', by simp [lookupN, ha, hm']⟩

theorem mem_lookupN {ns : List (String × TNode)} {i : String} {n : TNode}
    (hnodup : (ns.map Prod.fst).Nodup) (h : (i, n) ∈ ns) :
    lookupN ns i = some n := by
  induction ns with
  | nil => simp at h
  | cons p t ih =>
      obtain ⟨a, m⟩ := p
      simp only [List.map_cons, List.nodup_cons] at hnodup
      rcases List.mem_cons.mp h with hh | hh
      · cases hh
        simp [lookupN]
      · have ha : a ≠ i := by
          intro hai
          subst hai
          exact hnodup.1 (List.mem_map.mpr ⟨(a, n), hh, rfl⟩)
        simp [lookupN, ha, ih hnodup.2 hh]

theorem lookupN_none_iff {ns : List (String × TNode)} {i : String} :
    lookupN ns i = none ↔ i ∉ ns.map Prod.fst := by
  induction ns with
  | nil => simp [lookupN]
  | cons p t ih =>
      obtain ⟨a, m⟩ := p
      by_cases ha : a = i
      · subst ha
        simp [lookupN]
      · simp [lookupN, ha, ih, Ne.symm ha]

theorem lookupN_mem_ids {ns : List (String × TNode)} {i : String} {n : TNode}
    (h : lookupN ns i = some n) : i ∈ ns.map Prod.fst := by
  by_contra hmem
  rw [← lookupN_none_iff] at hmem
  rw [h] at hmem
  cases hmem

theorem lookupN_cons (a : String) (n : TNode) (t : List (String × TNode))
    (i : String) :
    lookupN ((a, n) :: t) i = if a = i then some n else lookupN t i := rfl

theorem mapAt_pair (k : String) (f : TNode → TNode) (a : String) (m : TNode) :
    mapAt k f (a, m) = if a = k then (a, f m) else (a, m) := rfl

theorem lookupN_map_mapAt (ns : List (String × TNode)) (k : String)
    (f : TNode → TNode) (i : String) :
    lookupN (ns.map (mapAt k f)) i =
      if i = k then (lookupN ns i).map f else lookupN ns i := by
  induction ns with
  | nil => by_cases h : i = k <;> simp [lookupN, h]
  | cons p t ih =>
      obtain ⟨a, m⟩ := p
      rw [List.map_cons, mapAt_pair]
      by_cases hak : a = k
      · rw [if_pos hak]
        subst hak
        by_cases hai : a = i
        · subst hai
          simp [lookupN_cons]
        · simp only [lookupN_cons, if_neg hai]
          have hia : ¬ i = a := fun h => hai h.symm
          rw [ih]
      · rw [if_neg hak]
        by_cases hai : a = i
        · subst hai
          have hik : ¬ a = k := hak
          simp [lookupN_cons, hik]
        · simp only [lookupN_cons, if_neg hai]
          rw [ih]

theorem ids_map_mapAt (ns : List (String × TNode)) (k : String)
    (f : TNode → TNode) :
    (ns.map (mapAt k f)).map Prod.fst = ns.map Prod.fst := by
  induction ns with
  | nil => rfl
  | cons p t ih =>
      obtain ⟨a, m⟩ := p
      by_cases hak : a = k <;> simp [mapAt, hak, ih]

theorem lookupN_append (ns ms : List (String × TNode)) (i : String) :
    lookupN (ns ++ ms) i = (lookupN ns i).or (lookupN ms i) := by
  induction ns with
  | nil => simp [lookupN]
  | cons p t ih =>
      obtain ⟨a, m⟩ := p
      by_cases ha : a = i <;> simp [lookupN, ha, ih]

theorem idxOf_append_left {l : List String} (l2 : List String) {x : String}
    (h : x ∈ l) : idxOf (l ++ l2) x = idxOf l x := by
  induction l with
  | nil => simp at h
  | cons a t ih =>
      by_cases ha : a = x
      · simp [idxOf, ha]
      · have hx : x ∈ t := by
          rcases List.mem_cons.mp h with hh | hh
          · exact absurd hh.symm ha
          · exact hh
        simp [idxOf, ha, ih hx]

theorem idxOf_append_self {l : List String} {x : String} (h : x ∉ l) :
    idxOf (l ++ [x]) x = l.length := by
  induction l with
  | nil => simp [idxOf]
  | cons a t ih =>
      have ha : a ≠ x := by
        intro hax
        exact h (hax ▸ List.mem_cons_self a t)
      have hx : x ∉ t := fun hx => h (List.mem_cons_of_mem _ hx)
      simp [idxOf, ha, ih hx]

theorem idxOf_lt_length {l : List String} {x : String} (h : x ∈ l) :
    idxOf l x < l.length := by
  induction l with
  | nil => simp at h
  | cons a t ih =>
      by_cases ha : a = x
      · simp [idxOf, ha]
      · have hx : x ∈ t := by
          rcases List.mem_cons.mp h with hh | hh
          · exact absurd hh.symm ha
          · exact hh
        simp only [idxOf, if_neg ha, List.length_cons]
        exact Nat.succ_lt_succ (ih hx)

theorem struct_lookup_transfer {t t' : QTreeFlat}
    (hstruct : ∀ i, (lookupN t'.nodes i).map (fun n => (n.parentId, n.childIds)) =
      (lookupN t.nodes i).map (fun n => (n.parentId, n.childIds)))
    {q : String} {qn : TNode} (h : lookupN t.nodes q = some qn) :
    ∃ qn', lookupN t'.nodes q = some qn' ∧ qn'.parentId = qn.parentId ∧
      qn'.childIds = qn.childIds := by
  have hs := hstruct q
  rw [h] at hs
  cases hl : lookupN t'.nodes q with
  | none => rw [hl] at hs; cases hs
  | some qn' =>
      rw [hl] at hs
      simp only [Option.map_some'] at hs
      have h1 := congrArg Prod.fst (Option.some.inj hs)
      have h2 := congrArg Prod.snd (Option.some.inj hs)
      exact ⟨qn', rfl, h1, h2⟩

theorem treeInv_transfer (t' t : QTreeFlat)
    (hroot : t'.rootId = t.rootId)
    (hids : idsOf t' = idsOf t)
    (hstruct : ∀ i, (lookupN t'.nodes i).map (fun n => (n.parentId, n.childIds)) =
      (lookupN t.nodes i).map (fun n => (n.parentId, n.childIds)))
    (hInv : TreeInv t) : TreeInv t' := by
  have hnodup' : (idsOf t').Nodup := hids ▸ hInv.nodup
  have hback : ∀ p ∈ t'.nodes, ∃ n0, lookupN t.nodes p.1 = some n0 ∧
      n0.parentId = (p.2).parentId ∧ n0.childIds = (p.2).childIds ∧
      (p.1, n0) ∈ t.nodes := by
    intro p hp
    obtain ⟨a, m⟩ := p
    have hl : lookupN t'.nodes a = some m := mem_lookupN hnodup' hp
    have hs := hstruct a
    rw [hl] at hs
    cases hlt : lookupN t.nodes a with
    | none => rw [hlt] at hs; cases hs
    | some n0 =>
        rw [hlt] at hs
        simp only [Option.map_some'] at hs
        have h1 := congrArg Prod.fst (Option.some.inj hs)
        have h2 := congrArg Prod.snd (Option.some.inj hs)
        exact ⟨n0, rfl, h1.symm, h2.symm, lookupN_mem hlt⟩
  refine ⟨hids ▸ hInv.nodup, ?_, ?_, ?_, ?_, ?_, ?_⟩
  · rw [hids, hroot]; exact hInv.rootMem
  · intro p hp
    obtain ⟨n0, _, hpar, _, hmem⟩ := hback p hp
    rw [← hpar, hroot]
    exact hInv.rootIff (p.1, n0) hmem
  · intro p hp q hq
    obtain ⟨n0, _, hpar, _, hmem⟩ := hback p hp
    obtain ⟨qn, hqn, hqch⟩ := hInv.parentChild (p.1, n0) hmem q (by rw [hpar]; exact hq)
    obtain ⟨qn', hqn', _, hch'⟩ := struct_lookup_transfer hstruct hqn
    exact ⟨qn', hqn', by rw [hch']; exact hqch⟩
  · intro p hp c hc
    obtain ⟨n0, _, _, hch, hmem⟩ := hback p hp
    obtain ⟨cn, hcn, hcnp⟩ := hInv.childParent (p.1, n0) hmem c (by rw [hch]; exact hc)
    obtain ⟨cn', hcn', hpar', _⟩ := struct_lookup_transfer hstruct hcn
    exact ⟨cn', hcn', by rw [hpar']; exact hcnp⟩
  · intro p hp
    obtain ⟨n0, _, _, hch, hmem⟩ := hback p hp
    rw [← hch]
    exact hInv.childNodup (p.1, n0) hmem
  · intro p hp q hq
    obtain ⟨n0, _, hpar, _, hmem⟩ := hback p hp
    rw [hids]
    exact hInv.parentBefore (p.1, n0) hmem q (by rw [hpar]; exact hq)

theorem mergeUpd_parentId (u : NodeUpd) (n : TNode) :
    (mergeUpd u n).parentId = n.parentId := rfl

theorem mergeUpd_childIds (u : NodeUpd) (n : TNode) :
    (mergeUpd u n).childIds = n.childIds := rfl

theorem treeInv_init (r intent : String) :
    TreeInv ⟨r, some r, [(r, rootTNode intent)]⟩ := by
  refine ⟨?_, ?_, ?_, ?_, ?_, ?_, ?_⟩
  · simp [idsOf]
  · simp [idsOf]
  · intro p hp
    simp only [List.mem_singleton] at hp
    subst hp
    simp [rootTNode]
  · intro p hp q hq
    simp only [List.mem_singleton] at hp
    subst hp
    simp [rootTNode] at hq
  · intro p hp c hc
    simp only [List.mem_singleton] at hp
    subst hp
    simp [rootTNode] at hc
  · intro p hp
    simp only [List.mem_singleton] at hp
    subst hp
    simp [rootTNode]
  · intro p hp q hq
    simp only [List.mem_singleton] at hp
    subst hp
    simp [rootTNode] at hq

theorem treeInv_upd (t : QTreeFlat) (i : String) (u : NodeUpd)
    (hInv : TreeInv t) :
    TreeInv { t with nodes := t.nodes.map (mapAt i (mergeUpd u)) } := by
  apply treeInv_transfer { t with nodes := t.nodes.map (mapAt i (mergeUpd u)) } t rfl
  · show (t.nodes.map (mapAt i (mergeUpd u))).map Prod.fst = idsOf t
    exact ids_map_mapAt t.nodes i (mergeUpd u)
  · intro j
    show (lookupN (t.nodes.map (mapAt i (mergeUpd u))) j).map _ = _
    rw [lookupN_map_mapAt]
    by_cases hj : j = i
    · rw [if_pos hj]
      cases hl : lookupN t.nodes j with
      | none => rfl
      | some n => simp [mergeUpd_parentId, mergeUpd_childIds]
    · rw [if_neg hj]
  · exact hInv

theorem treeInv_focus (t : QTreeFlat) (i : String) (hInv : TreeInv t) :
    TreeInv { t with currentNodeId := some i } :=
  ⟨hInv.nodup, hInv.rootMem, hInv.rootIff, hInv.parentChild,
   hInv.childParent, hInv.childNodup, hInv.parentBefore⟩

theorem mapAt_fst (k : String) (f : TNode → TNode) (q : String × TNode) :
    (mapAt k f q).1 = q.1 := by
  unfold mapAt
  split <;> rfl

theorem mapAt_ext_parentId (p c : String) (q : String × TNode) :
    ((mapAt p (extChild c) q).2).parentId = (q.2).parentId := by
  unfold mapAt
  split <;> rfl

theorem mapAt_ext_childIds (p c : String) (q : String × TNode) :
    ((mapAt p (extChild c) q).2).childIds =
      if q.1 = p then (q.2).childIds ++ [c] else (q.2).childIds := by
  unfold mapAt
  by_cases h : q.1 = p
  · rw [if_pos h, if_pos h]
    rfl
  · rw [if_neg h, if_neg h]

theorem treeInv_add_core (r : String) (cur cur' : Option String)
    (ns : List (String × TNode)) (p c intent : String) (pn : TNode)
    (hpn : lookupN ns p = some pn) (hc : lookupN ns c = none)
    (hInv : TreeInv ⟨r, cur, ns⟩) :
    TreeInv ⟨r, cur', ns.map (mapAt p (extChild c)) ++
      [(c, childTNode p intent)]⟩ := by
  have hcid : c ∉ ns.map Prod.fst := lookupN_none_iff.mp hc
  have hpid : p ∈ ns.map Prod.fst := lookupN_mem_ids hpn
  have hpc : ¬ p = c := fun h => hcid (h ▸ hpid)
  have hlk : ∀ i, lookupN (ns.map (mapAt p (extChild c)) ++
      [(c, childTNode p intent)]) i =
      if i = c then some (childTNode p intent)
      else if i = p then (lookupN ns i).map (extChild c) else lookupN ns i := by
    intro i
    rw [lookupN_append, lookupN_map_mapAt]
    by_cases hi : i = c
    · subst hi
      have hip : ¬ i = p := fun h => hpc h.symm
      rw [if_neg hip, hc, if_pos rfl]
      simp [lookupN]
    · rw [if_neg hi]
      have : lookupN [(c, childTNode p intent)] i = none := by
        have hci : ¬ c = i := fun h => hi h.symm
        simp [lookupN, hci]
      rw [this]
      by_cases hip : i = p
      · rw [if_pos hip, Option.or_none]
      · rw [if_neg hip, Option.or_none]
  have hmemsplit : ∀ p' : String × TNode,
      p' ∈ ns.map (mapAt p (extChild c)) ++ [(c, childTNode p intent)] →
      (∃ q0 ∈ ns, p' = mapAt p (extChild c) q0) ∨
        p' = (c, childTNode p intent) := by
    intro p' hp'
    rcases List.mem_append.mp hp' with h | h
    · obtain ⟨q0, hq0, hq0e⟩ := List.mem_map.mp h
      exact Or.inl ⟨q0, hq0, hq0e.symm⟩
    · exact Or.inr (List.mem_singleton.mp h)
  have hchsub : ∀ q0 ∈ ns, ∀ x ∈ (q0.2).childIds, x ∈ ns.map Prod.fst := by
    intro q0 hq0 x hx
    obtain ⟨cn, hcn, _⟩ := hInv.childParent q0 hq0 x hx
    exact lookupN_mem_ids hcn
  have htrans : ∀ c0 cn, lookupN ns c0 = some cn →
      ∃ cn', lookupN (ns.map (mapAt p (extChild c)) ++
        [(c, childTNode p intent)]) c0 = some cn' ∧
        cn'.parentId = cn.parentId := by
    intro c0 cn hcn
    have hc0c : ¬ c0 = c := fun h => hcid (h ▸ lookupN_mem_ids hcn)
    rw [hlk c0, if_neg hc0c]
    by_cases hc0p : c0 = p
    · rw [if_pos hc0p, hcn]
      exact ⟨_, rfl, rfl⟩
    · rw [if_neg hc0p, hcn]
      exact ⟨cn, rfl, rfl⟩
  have hids' : (ns.map (mapAt p (extChild c)) ++
      [(c, childTNode p intent)]).map Prod.fst = ns.map Prod.fst ++ [c] := by
    rw [List.map_append, ids_map_mapAt]
    rfl
  refine ⟨?_, ?_, ?_, ?_, ?_, ?_, ?_⟩
  · show ((ns.map (mapAt p (extChild c)) ++
      [(c, childTNode p intent)]).map Prod.fst).Nodup
    rw [hids']
    refine List.Nodup.append hInv.nodup (List.nodup_singleton c) ?_
    intro a ha hb
    rw [List.mem_singleton] at hb
    subst hb
    exact hcid ha
  · show r ∈ (ns.map (mapAt p (extChild c)) ++
      [(c, childTNode p intent)]).map Prod.fst
    rw [hids']
    exact List.mem_append_left _ hInv.rootMem
  · intro p' hp'
    rcases hmemsplit p' hp' with ⟨q0, hq0, rfl⟩ | rfl
    · show ((mapAt p (extChild c) q0).2).parentId = none ↔
        (mapAt p (extChild c) q0).1 = r
      rw [mapAt_ext_parentId, mapAt_fst]
      exact hInv.rootIff q0 hq0
    · show ((c, childTNode p intent).2).parentId = none ↔ c = r
      constructor
      · intro hnone
        simp [childTNode] at hnone
      · intro hceq
        have hr := hInv.rootMem
        rw [← hceq] at hr
        exact absurd hr hcid
  · intro p' hp' q hq
    rcases hmemsplit p' hp' with ⟨q0, hq0, rfl⟩ | rfl
    · rw [mapAt_ext_parentId] at hq
      obtain ⟨qn, hqn, hmemch⟩ := hInv.parentChild q0 hq0 q hq
      have hqc : ¬ q = c := fun h => hcid (h ▸ lookupN_mem_ids hqn)
      rw [mapAt_fst]
      show ∃ qn', lookupN (ns.map (mapAt p (extChild c)) ++
        [(c, childTNode p intent)]) q = some qn' ∧ q0.1 ∈ qn'.childIds
      rw [hlk q, if_neg hqc]
      by_cases hqp : q = p
      · rw [if_pos hqp, hqn]
        exact ⟨_, rfl, List.mem_append_left _ hmemch⟩
      · rw [if_neg hqp, hqn]
        exact ⟨qn, rfl, hmemch⟩
    · have hq' : some p = some q := hq
      have hqp : q = p := (Option.some.inj hq').symm
      rw [hqp]
      show ∃ qn', lookupN (ns.map (mapAt p (extChild c)) ++
        [(c, childTNode p intent)]) p = some qn' ∧ c ∈ qn'.childIds
      rw [hlk p, if_neg hpc, if_pos rfl, hpn]
      refine ⟨_, rfl, ?_⟩
      show c ∈ pn.childIds ++ [c]
      exact List.mem_append_right _ (List.mem_singleton.mpr rfl)
  · intro p' hp' c0 hc0
    rcases hmemsplit p' hp' with ⟨q0, hq0, rfl⟩ | rfl
    · rw [mapAt_ext_childIds] at hc0
      rw [mapAt_fst]
      by_cases hq0p : q0.1 = p
      · rw [if_pos hq0p] at hc0
        rcases List.mem_append.mp hc0 with hold | hnew
        · obtain ⟨cn, hcn, hcnp⟩ := hInv.childParent q0 hq0 c0 hold
          obtain ⟨cn', hl', hpar'⟩ := htrans c0 cn hcn
          exact ⟨cn', hl', by rw [hpar', hcnp]⟩
        · rw [List.mem_singleton] at hnew
          subst hnew
          refine ⟨childTNode p intent, ?_, ?_⟩
          · rw [hlk c0, if_pos rfl]
          · show some p = some q0.1
            rw [hq0p]
      · rw [if_neg hq0p] at hc0
        obtain ⟨cn, hcn, hcnp⟩ := hInv.childParent q0 hq0 c0 hc0
        obtain ⟨cn', hl', hpar'⟩ := htrans c0 cn hcn
        exact ⟨cn', hl', by rw [hpar', hcnp]⟩
    · simp [childTNode] at hc0
  · intro p' hp'
    rcases hmemsplit p' hp' with ⟨q0, hq0, rfl⟩ | rfl
    · rw [mapAt_ext_childIds]
      by_cases hq0p : q0.1 = p
      · rw [if_pos hq0p]
        refine List.Nodup.append (hInv.childNodup q0 hq0)
          (List.nodup_singleton c) ?_
        intro a ha hb
        rw [List.mem_singleton] at hb
        subst hb
        exact hcid (hchsub q0 hq0 a ha)
      · rw [if_neg hq0p]
        exact hInv.childNodup q0 hq0
    · show (((c, childTNode p intent).2).childIds).Nodup
      simp [childTNode]
  · intro p' hp' q hq
    rcases hmemsplit p' hp' with ⟨q0, hq0, rfl⟩ | rfl
    · rw [mapAt_ext_parentId] at hq
      rw [mapAt_fst]
      obtain ⟨qn, hqn, _⟩ := hInv.parentChild q0 hq0 q hq
      have hqmem : q ∈ ns.map Prod.fst := lookupN_mem_ids hqn
      have hq0mem : q0.1 ∈ ns.map Prod.fst := List.mem_map_of_mem Prod.fst hq0
      show idxOf ((ns.map (mapAt p (extChild c)) ++
        [(c, childTNode p intent)]).map Prod.fst) q <
        idxOf ((ns.map (mapAt p (extChild c)) ++
          [(c, childTNode p intent)]).map Prod.fst) q0.1
      rw [hids', idxOf_append_left _ hqmem, idxOf_append_left _ hq0mem]
      exact hInv.parentBefore q0 hq0 q hq
    · have hq' : some p = some q := hq
      have hqp : q = p := (Option.some.inj hq').symm
      rw [hqp]
      show idxOf ((ns.map (mapAt p (extChild c)) ++
        [(c, childTNode p intent)]).map Prod.fst) p <
        idxOf ((ns.map (mapAt p (extChild c)) ++
          [(c, childTNode p intent)]).map Prod.fst) c
      rw [hids', idxOf_append_left _ hpid, idxOf_append_self hcid]
      exact idxOf_lt_length hpid

theorem countP_root_aux (ns : List (String × TNode)) (r : String)
    (hnodup : (ns.map Prod.fst).Nodup)
    (hiff : ∀ p ∈ ns, ((p.2).parentId.isNone = true ↔ p.1 = r))
    (hmem : r ∈ ns.map Prod.fst) :
    ns.countP (fun p => (p.2).parentId.isNone) = 1 := by
  induction ns with
  | nil => simp at hmem
  | cons q t ih =>
      obtain ⟨a, m⟩ := q
      simp only [List.map_cons, List.nodup_cons] at hnodup
      by_cases ha : a = r
      · subst ha
        have hhead : m.parentId.isNone = true :=
          (hiff (a, m) (List.mem_cons_self _ _)).mpr rfl
        rw [List.countP_cons_of_pos]
        · have hrest : t.countP (fun p => (p.2).parentId.isNone) = 0 := by
            rw [List.countP_eq_zero]
            intro q hq hqn
            have hq1 := (hiff q (List.mem_cons_of_mem _ hq)).mp hqn
            exact hnodup.1 (List.mem_map.mpr ⟨q, hq, hq1⟩)
          rw [hrest]
        · exact hhead
      · have hhead : ¬ m.parentId.isNone = true :=
          fun hh => ha ((hiff (a, m) (List.mem_cons_self _ _)).mp hh)
        rw [List.countP_cons_of_neg]
        · have hmem' : r ∈ t.map Prod.fst := by
            rcases List.mem_cons.mp hmem with hh | hh
            · exact absurd hh.symm ha
            · exact hh
          exact ih hnodup.2 (fun p hp => hiff p (List.mem_cons_of_mem _ hp)) hmem'
        · exact hhead

theorem exactlyOneRoot_of_inv (t : QTreeFlat) (hInv : TreeInv t) :
    ExactlyOneRoot t := by
  apply countP_root_aux t.nodes t.rootId hInv.nodup _ hInv.rootMem
  intro p hp
  constructor
  · intro h
    exact (hInv.rootIff p hp).mp (Option.isNone_iff_eq_none.mp h)
  · intro h
    rw [Option.isNone_iff_eq_none]
    exact (hInv.rootIff p hp).mpr h

theorem bidir_of_inv (t : QTreeFlat) (hInv : TreeInv t) : BidirConsistent t := by
  intro p hp q hq
  obtain ⟨qn, hqn, hmem⟩ := hInv.parentChild p hp q hq
  refine ⟨qn, hqn, ?_⟩
  exact List.count_eq_one_of_mem (hInv.childNodup (q, qn) (lookupN_mem hqn)) hmem

theorem edgeT_idx_lt (t : QTreeFlat) (hInv : TreeInv t) (a b : String)
    (h : EdgeT t a b) : idxOf (idsOf t) a < idxOf (idsOf t) b := by
  obtain ⟨n, hl, hb⟩ := h
  obtain ⟨cn, hcn, hcnp⟩ := hInv.childParent (a, n) (lookupN_mem hl) b hb
  exact hInv.parentBefore (b, cn) (lookupN_mem hcn) a hcnp

theorem reachesT_idx_lt (t : QTreeFlat) (hInv : TreeInv t) (a b : String)
    (h : ReachesT t a b) : idxOf (idsOf t) a < idxOf (idsOf t) b := by
  induction h with
  | single h1 => exact edgeT_idx_lt t hInv _ _ h1
  | tail _ h2 ih => exact lt_trans ih (edgeT_idx_lt t hInv _ _ h2)

theorem acyclic_of_inv (t : QTreeFlat) (hInv : TreeInv t) : Acyclic t := by
  intro i hreach
  exact lt_irrefl _ (reachesT_idx_lt t hInv i i hreach)

theorem applyOp_inv (s : Option QTreeFlat) (op : TreeOp) (s' : Option QTreeFlat)
    (hs : InvOpt s) (h : applyOp s op = .ok s') : InvOpt s' := by
  cases s with
  | none =>
      cases op with
      | initTree r intent =>
          simp only [applyOp] at h
          have hs' := Except.ok.inj h
          subst hs'
          show TreeInv _
          exact treeInv_init r intent
      | addNode p c intent => simp [applyOp] at h
      | updNode i u => simp [applyOp] at h
      | setFocus i => simp [applyOp] at h
  | some t =>
      have hInv : TreeInv t := hs
      cases op with
      | initTree r intent => simp [applyOp] at h
      | addNode p c intent =>
          simp only [applyOp] at h
          cases hp : lookupN t.nodes p with
          | none => rw [hp] at h; simp at h
          | some pn =>
              rw [hp] at h
              cases hcc : lookupN t.nodes c with
              | some cn => rw [hcc] at h; simp at h
              | none =>
                  rw [hcc] at h
                  simp only [] at h
                  have hs' := Except.ok.inj h
                  subst hs'
                  show TreeInv _
                  exact treeInv_add_core t.rootId t.currentNodeId
                    t.currentNodeId t.nodes p c intent pn hp hcc hInv
      | updNode i u =>
          simp only [applyOp] at h
          cases hi : lookupN t.nodes i with
          | none => rw [hi] at h; simp at h
          | some n =>
              rw [hi] at h
              simp only [] at h
              have hs' := Except.ok.inj h
              subst hs'
              show TreeInv _
              exact treeInv_upd t i u hInv
      | setFocus i =>
          simp only [applyOp] at h
          cases hi : lookupN t.nodes i with
          | none => rw [hi] at h; simp at h
          | some n =>
              rw [hi] at h
              simp only [] at h
              have hs' := Except.ok.inj h
              subst hs'
              show TreeInv _
              exact treeInv_focus t i hInv

theorem applyOps_inv_aux (ops : List TreeOp) :
    ∀ (s : Option QTreeFlat), InvOpt s → ∀ s',
      List.foldlM applyOp s ops = .ok s' → InvOpt s' := by
  induction ops with
  | nil =>
      intro s hs s' h
      have h' : (Except.ok s : Except TreeErr (Option QTreeFlat)) = .ok s' := h
      have hss := Except.ok.inj h'
      subst hss
      exact hs
  | cons op ops ih =>
      intro s hs s' h
      rw [List.foldlM_cons] at h
      cases hop : applyOp s op with
      | error e =>
          rw [hop] at h
          have h' : (Except.error e : Except TreeErr (Option QTreeFlat)) = .ok s' := h
          simp at h'
      | ok s1 =>
          rw [hop] at h
          have h' : List.foldlM applyOp s1 ops = .ok s' := h
          exact ih s1 (applyOp_inv s op s1 hs hop) s' h'

theorem applyOps_inv (ops : List TreeOp) (s' : Option QTreeFlat)
    (h : applyOps ops = .ok s') : InvOpt s' :=
  applyOps_inv_aux ops none trivial s' h

/-- C5: every tree produced by a sequence of tree manager operations has
exactly one root, is bidirectionally consistent between parentId and
childIds, and is acyclic. -/
theorem c5_tree_integrity (ops : List TreeOp) (t : QTreeFlat)
    (h : applyOps ops = .ok (some t)) :
    ExactlyOneRoot t ∧ BidirConsistent t ∧ Acyclic t := by
  have hInv : TreeInv t := applyOps_inv ops (some t) h
  exact ⟨exactlyOneRoot_of_inv t hInv, bidir_of_inv t hInv, acyclic_of_inv t hInv⟩

/-- Witness for C5 on the concrete two-node tree. -/
theorem c5_tree_integrity_witness :
    ExactlyOneRoot c5ExTree ∧ BidirConsistent c5ExTree ∧ Acyclic c5ExTree :=
  c5_tree_integrity c5ExOps c5ExTree rfl

mutual

theorem findFocus_eq_find (m : Nat) : (t : QTree) →
    findFocus m t = (preorder t).find? (fun i => unproc m i)
  | .node i cs => by
      rw [findFocus, preorder]
      by_cases h : unproc m i = true
      · rw [if_pos h, List.find?_cons_of_pos _ h]
      · rw [if_neg h, List.find?_cons_of_neg _ h]
        exact findFocusF_eq_find m cs

theorem findFocusF_eq_find (m : Nat) : (f : List QTree) →
    findFocusF m f = (preorderF f).find? (fun i => unproc m i)
  | [] => rfl
  | t :: ts => by
      rw [findFocusF, preorderF, List.find?_append, findFocus_eq_find m t,
        findFocusF_eq_find m ts]
      cases (preorder t).find? (fun i => unproc m i) <;> simp [Option.or]

end

mutual

theorem allProc_eq_all (m : Nat) : (t : QTree) →
    allProc m t = (preorder t).all (fun i => !(unproc m i))
  | .node i cs => by
      rw [allProc, preorder, List.all_cons, allProcF_eq_all m cs]

theorem allProcF_eq_all (m : Nat) : (f : List QTree) →
    allProcF m f = (preorderF f).all (fun i => !(unproc m i))
  | [] => rfl
  | t :: ts => by
      rw [allProcF, preorderF, List.all_append, allProc_eq_all m t,
        allProcF_eq_all m ts]

end

/-- C1: the checker's focus is the first node of the pre-order traversal
(node before its children, children in stored order, starting at the root)
that is unprocessed, and the report is complete exactly when no node of the
tree is unprocessed. -/
theorem c1_status_checker (m : Nat) (t : QTree) :
    (analyze m t).focusNodeId =
      ((preorder t).find? (fun i => unproc m i)).map NodeInfo.nodeId ∧
    ((analyze m t).complete = true ↔ ∀ i ∈ preorder t, unproc m i = false) := by
  constructor
  · show (findFocus m t).map NodeInfo.nodeId = _
    rw [findFocus_eq_find]
  · show allProc m t = true ↔ _
    rw [allProc_eq_all, List.all_eq_true]
    constructor
    · intro h i hi
      have := h i hi
      rwa [Bool.not_eq_true'] at this
    · intro h i hi
      rw [Bool.not_eq_true']
      exact h i hi

/-- Witness for C1 on the concrete two-node tree. -/
theorem c1_status_checker_witness :
    ((analyze 3 c1ExTree).focusNodeId =
      ((preorder c1ExTree).find? (fun i => unproc 3 i)).map NodeInfo.nodeId) ∧
    ((analyze 3 c1ExTree).complete = true ↔
      ∀ i ∈ preorder c1ExTree, unproc 3 i = false) :=
  c1_status_checker 3 c1ExTree

/- ===================== Loop termination lemmas ===================== -/
theorem phi_mk_GOOD (m : Nat) (id : String) (sch gen : Bool) (r : Nat) :
    phi m ⟨id, .GOOD, sch, gen, r⟩ = 0 := rfl

theorem phi_mk_EXH (m : Nat) (id : String) (sch gen : Bool) (r : Nat) :
    phi m ⟨id, .RETRIES_EXHAUSTED, sch, gen, r⟩ = 0 := rfl

theorem phi_mk_BAD (m : Nat) (id : String) (sch gen : Bool) (r : Nat) :
    phi m ⟨id, .BAD, sch, gen, r⟩ = if r < m then 2 * (m - r) else 0 := rfl

theorem phi_mk_NE (m : Nat) (id : String) (sch gen : Bool) (r : Nat) :
    phi m ⟨id, .NEEDS_EVALUATION, sch, gen, r⟩ = phiNE m r := rfl

theorem phi_mk_NR (m : Nat) (id : String) (sch gen : Bool) (r : Nat) :
    phi m ⟨id, .NO_RESULT, sch, gen, r⟩ =
      (if sch then 1 else 2) + phiNE m r := rfl

theorem phi_recordBad (m : Nat) (id : String) (st : NodeStatus)
    (sch gen : Bool) (r : Nat) :
    phi m (recordBadEval m ⟨id, st, sch, gen, r⟩) =
      if r + 1 = m then 0
      else if r + 1 < m then 2 * (m - (r + 1)) else 0 := by
  show phi m ⟨id, if r + 1 = m then .RETRIES_EXHAUSTED else .BAD, sch, gen,
    r + 1⟩ = _
  by_cases h1 : r + 1 = m
  · rw [if_pos h1, if_pos h1, phi_mk_EXH]
  · rw [if_neg h1, if_neg h1, phi_mk_BAD]

theorem phi_dispatch_lt (m : Nat) (g : RecommendedAction → Bool)
    (i : NodeInfo) (h : unproc m i = true) :
    phi m (dispatchNode m g i) < phi m i := by
  obtain ⟨id, st, sch, gen, r⟩ := i
  cases st with
  | GOOD => simp [unproc] at h
  | RETRIES_EXHAUSTED => simp [unproc] at h
  | NO_RESULT =>
      rw [phi_mk_NR]
      cases sch with
      | false =>
          cases hg : g RecommendedAction.needsSchemaLinking with
          | true =>
              have hstep : dispatchNode m g ⟨id, .NO_RESULT, false, gen, r⟩ =
                  ⟨id, .NO_RESULT, true, gen, r⟩ := by
                show applyCollab m .needsSchemaLinking
                  (g .needsSchemaLinking) ⟨id, .NO_RESULT, false, gen, r⟩ = _
                rw [hg]
                rfl
              rw [hstep, phi_mk_NR]
              simp only [Bool.false_eq_true, if_false, if_true]
              omega
          | false =>
              have hstep : dispatchNode m g ⟨id, .NO_RESULT, false, gen, r⟩ =
                  recordBadEval m ⟨id, .NO_RESULT, false, gen, r⟩ := by
                show applyCollab m .needsSchemaLinking
                  (g .needsSchemaLinking) ⟨id, .NO_RESULT, false, gen, r⟩ = _
                rw [hg]
                rfl
              rw [hstep, phi_recordBad]
              simp only [Bool.false_eq_true, if_false, phiNE]
              split_ifs <;> omega
      | true =>
          cases hg : g RecommendedAction.needsGeneration with
          | true =>
              have hstep : dispatchNode m g ⟨id, .NO_RESULT, true, gen, r⟩ =
                  ⟨id, .NEEDS_EVALUATION, true, true, r⟩ := by
                show applyCollab m .needsGeneration
                  (g .needsGeneration) ⟨id, .NO_RESULT, true, gen, r⟩ = _
                rw [hg]
                rfl
              rw [hstep, phi_mk_NE]
              simp only [if_true]
              omega
          | false =>
              have hstep : dispatchNode m g ⟨id, .NO_RESULT, true, gen, r⟩ =
                  recordBadEval m ⟨id, .NO_RESULT, true, gen, r⟩ := by
                show applyCollab m .needsGeneration
                  (g .needsGeneration) ⟨id, .NO_RESULT, true, gen, r⟩ = _
                rw [hg]
                rfl
              rw [hstep, phi_recordBad]
              simp only [if_true, phiNE]
              split_ifs <;> omega
  | NEEDS_EVALUATION =>
      rw [phi_mk_NE]
      cases hg : g RecommendedAction.needsEvaluation with
      | true =>
          have hstep : dispatchNode m g ⟨id, .NEEDS_EVALUATION, sch, gen, r⟩ =
              ⟨id, .GOOD, sch, gen, r⟩ := by
            show applyCollab m .needsEvaluation
              (g .needsEvaluation) ⟨id, .NEEDS_EVALUATION, sch, gen, r⟩ = _
            rw [hg]
            rfl
          rw [hstep, phi_mk_GOOD]
          simp only [phiNE]
          split_ifs <;> omega
      | false =>
          have hstep : dispatchNode m g ⟨id, .NEEDS_EVALUATION, sch, gen, r⟩ =
              recordBadEval m ⟨id, .NEEDS_EVALUATION, sch, gen, r⟩ := by
            show applyCollab m .needsEvaluation
              (g .needsEvaluation) ⟨id, .NEEDS_EVALUATION, sch, gen, r⟩ = _
            rw [hg]
            rfl
          rw [hstep, phi_recordBad]
          simp only [phiNE]
          split_ifs <;> omega
  | BAD =>
      simp only [unproc, decide_eq_true_eq] at h
      rw [phi_mk_BAD, if_pos h]
      have hact : actionOf m ⟨id, .BAD, sch, gen, r⟩ =
          some .needsRegeneration := by
        show (if r < m then some RecommendedAction.needsRegeneration
          else none) = _
        rw [if_pos h]
      have hstep : dispatchNode m g ⟨id, .BAD, sch, gen, r⟩ =
          applyCollab m .needsRegeneration
            (g .needsRegeneration) ⟨id, .BAD, sch, gen, r⟩ := by
        rw [dispatchNode, hact]
      cases hg : g RecommendedAction.needsRegeneration with
      | true =>
          rw [hstep, hg]
          have hred : applyCollab m .needsRegeneration true
              ⟨id, .BAD, sch, gen, r⟩ = ⟨id, .NEEDS_EVALUATION, sch, true, r⟩ :=
            rfl
          rw [hred, phi_mk_NE]
          simp only [phiNE]
          rw [if_pos h]
          omega
      | false =>
          rw [hstep, hg]
          have hred : applyCollab m .needsRegeneration false
              ⟨id, .BAD, sch, gen, r⟩ =
              recordBadEval m ⟨id, .BAD, sch, gen, r⟩ := rfl
          rw [hred, phi_recordBad]
          split_ifs <;> omega

theorem PhiL_step_lt (m : Nat) (g : RecommendedAction → Bool)
    (ns : List NodeInfo) (h : allDone m ns = false) :
    PhiL m (stepList m g ns) < PhiL m ns := by
  induction ns with
  | nil => simp [allDone] at h
  | cons i is ih =>
      by_cases hu : unproc m i = true
      · rw [stepList, if_pos hu]
        simp only [PhiL, List.map_cons, List.sum_cons]
        exact Nat.add_lt_add_right (phi_dispatch_lt m g i hu) _
      · have hu' : unproc m i = false := by rwa [Bool.not_eq_true] at hu
        have h' : allDone m is = false := by
          rw [allDone, List.all_cons, hu'] at h
          simpa [allDone] using h
        rw [stepList, if_neg hu]
        simp only [PhiL, List.map_cons, List.sum_cons]
        exact Nat.add_lt_add_left (ih h') _

theorem loopList_completes (m : Nat) (orc : Nat → RecommendedAction → Bool) :
    ∀ (fuel k : Nat) (ns : List NodeInfo), PhiL m ns < fuel →
      ∃ j, loopList m orc fuel k ns = some j ∧ j ≤ k + PhiL m ns + 1 := by
  intro fuel
  induction fuel with
  | zero =>
      intro k ns h
      exact absurd h (Nat.not_lt_zero _)
  | succ fuel ih =>
      intro k ns h
      by_cases hd : allDone m ns = true
      · exact ⟨k + 1, by rw [loopList, if_pos hd], by omega⟩
      · have hd' : allDone m ns = false := by rwa [Bool.not_eq_true] at hd
        have hlt := PhiL_step_lt m (orc k) ns hd'
        obtain ⟨j, hj, hjle⟩ :=
          ih (k + 1) (stepList m (orc k) ns) (by omega)
        refine ⟨j, ?_, by omega⟩
        rw [loopList, if_neg hd]
        exact hj

theorem phi_le (m : Nat) (hm : 1 ≤ m) (i : NodeInfo) :
    phi m i ≤ 2 * m + 1 := by
  obtain ⟨id, st, sch, gen, r⟩ := i
  cases st with
  | GOOD => rw [phi_mk_GOOD]; omega
  | RETRIES_EXHAUSTED => rw [phi_mk_EXH]; omega
  | BAD => rw [phi_mk_BAD]; split_ifs <;> omega
  | NEEDS_EVALUATION =>
      rw [phi_mk_NE]
      simp only [phiNE]
      split_ifs <;> omega
  | NO_RESULT =>
      rw [phi_mk_NR]
      simp only [phiNE]
      split_ifs <;> omega

theorem PhiL_le (m : Nat) (hm : 1 ≤ m) (ns : List NodeInfo) :
    PhiL m ns ≤ ns.length * (2 * m + 1) := by
  induction ns with
  | nil => simp [PhiL]
  | cons i is ih =>
      simp only [PhiL, List.map_cons, List.sum_cons, List.length_cons] at *
      have hp := phi_le m hm i
      rw [Nat.succ_mul]
      omega

theorem orchRun_failure (m : Nat) (orc : Nat → RecommendedAction → Bool) :
    ∀ (fuel k : Nat) (ns : List NodeInfo),
      loopList m orc fuel k ns = none → orchRun m orc fuel k ns = .FAILURE := by
  intro fuel
  induction fuel with
  | zero => intro k ns _; rfl
  | succ fuel ih =>
      intro k ns h
      by_cases hd : allDone m ns = true
      · rw [loopList, if_pos hd] at h
        cases h
      · rw [loopList, if_neg hd] at h
        rw [orchRun, if_neg hd]
        exact ih (k + 1) (stepList m (orc k) ns) h

/-- C8 amended: for a node sequence of length N the loop reaches a state the
checker reports complete within at most N * (2 * MAX_RETRIES + 1) + 1
iterations (for MAX_RETRIES at least 1), whatever the collaborators answer;
independently, whenever the global iteration ceiling is exhausted before
completion the run terminates with FAILURE. -/
theorem c8_loop_bound (m : Nat) (hm : 1 ≤ m)
    (orc : Nat → RecommendedAction → Bool) (ns : List NodeInfo) :
    (∃ k, loopList m orc (ns.length * (2 * m + 1) + 1) 0 ns = some k ∧
      k ≤ ns.length * (2 * m + 1) + 1) ∧
    (∀ ceiling, loopList m orc ceiling 0 ns = none →
      orchRun m orc ceiling 0 ns = .FAILURE) := by
  constructor
  · have hb := PhiL_le m hm ns
    obtain ⟨j, hj, hjle⟩ :=
      loopList_completes m orc (ns.length * (2 * m + 1) + 1) 0 ns (by omega)
    exact ⟨j, hj, by omega⟩
  · intro ceiling h
    exact orchRun_failure m orc ceiling 0 ns h

/-- Witness for C8 (amended): the single-node sequence under the
always-failing evaluator, with MAX_RETRIES = 3. -/
theorem c8_loop_bound_witness :
    (∃ k, loopList 3 c8ExOrc ([c8ExNode].length * (2 * 3 + 1) + 1) 0
      [c8ExNode] = some k ∧
      k ≤ [c8ExNode].length * (2 * 3 + 1) + 1) ∧
    (∀ ceiling, loopList 3 c8ExOrc ceiling 0 [c8ExNode] = none →
      orchRun 3 c8ExOrc ceiling 0 [c8ExNode] = .FAILURE) :=
  c8_loop_bound 3 (by decide) c8ExOrc [c8ExNode]

/-- C8 counterexample: on a single-node tree (N = 1) with MAX_RETRIES = 3
and collaborators whose evaluations always come back BAD, the loop has not
reached completion after N * MAX_RETRIES + 1 = 4 iterations — completion
first occurs at iteration 8, because each consumed retry costs a
regeneration dispatch and an evaluation dispatch on top of the initial
schema-linking and generation dispatches. -/
theorem c8_counterexample :
    loopList 3 c8ExOrc (1 * 3 + 1) 0 [c8ExNode] = none ∧
    loopList 3 c8ExOrc 20 0 [c8ExNode] = some 8 := by
  constructor
  · rfl
  · rfl

theorem applyCollab_nodeId (m : Nat) (a : RecommendedAction) (b : Bool)
    (i : NodeInfo) : (applyCollab m a b i).nodeId = i.nodeId := by
  cases a <;> cases b <;> rfl

theorem dispatchNode_nodeId (m : Nat) (g : RecommendedAction → Bool)
    (i : NodeInfo) : (dispatchNode m g i).nodeId = i.nodeId := by
  rw [dispatchNode]
  cases h : actionOf m i with
  | none => rfl
  | some a => exact applyCollab_nodeId m a (g a) i

/-- C9: no manager operation removes a node id — every id present before a
successful operation is present after it (the modelled manager API of
section 4.3 has no removal operation at all) — and a loop iteration
preserves the node sequence's ids exactly: nodes are only ever marked, never
removed. -/
theorem c9_no_deletion :
    (∀ (s : Option QTreeFlat) (op : TreeOp) (s' : Option QTreeFlat),
      applyOp s op = .ok s' → ∀ i, memIds s i → memIds s' i) ∧
    (∀ (m : Nat) (g : RecommendedAction → Bool) (ns : List NodeInfo),
      (stepList m g ns).map NodeInfo.nodeId = ns.map NodeInfo.nodeId) := by
  constructor
  · intro s op s' h i hi
    cases s with
    | none => exact hi.elim
    | some t =>
        cases op with
        | initTree r intent => simp [applyOp] at h
        | addNode p c intent =>
            simp only [applyOp] at h
            cases hp : lookupN t.nodes p with
            | none => rw [hp] at h; simp at h
            | some pn =>
                rw [hp] at h
                cases hcc : lookupN t.nodes c with
                | some cn => rw [hcc] at h; simp at h
                | none =>
                    rw [hcc] at h
                    have hs' := Except.ok.inj h
                    subst hs'
                    show i ∈ idsOf _
                    have hids : idsOf { t with
                        nodes := t.nodes.map (mapAt p (extChild c)) ++
                          [(c, childTNode p intent)] } = idsOf t ++ [c] := by
                      show (t.nodes.map (mapAt p (extChild c)) ++
                        [(c, childTNode p intent)]).map Prod.fst = _
                      rw [List.map_append, ids_map_mapAt]
                      rfl
                    rw [hids]
                    exact List.mem_append_left _ hi
        | updNode nid u =>
            simp only [applyOp] at h
            cases hn : lookupN t.nodes nid with
            | none => rw [hn] at h; simp at h
            | some n =>
                rw [hn] at h
                have hs' := Except.ok.inj h
                subst hs'
                show i ∈ idsOf _
                have hids : idsOf { t with
                    nodes := t.nodes.map (mapAt nid (mergeUpd u)) } =
                    idsOf t := by
                  show (t.nodes.map (mapAt nid (mergeUpd u))).map Prod.fst = _
                  exact ids_map_mapAt t.nodes nid (mergeUpd u)
                rw [hids]
                exact hi
        | setFocus nid =>
            simp only [applyOp] at h
            cases hn : lookupN t.nodes nid with
            | none => rw [hn] at h; simp at h
            | some n =>
                rw [hn] at h
                have hs' := Except.ok.inj h
                subst hs'
                exact hi
  · intro m g ns
    induction ns with
    | nil => rfl
    | cons i is ih =>
        by_cases hu : unproc m i = true
        · rw [stepList, if_pos hu]
          simp only [List.map_cons]
          rw [dispatchNode_nodeId]
        · rw [stepList, if_neg hu]
          simp only [List.map_cons, ih]

/-- Witness for C9: adding a child keeps the root id present, and a loop
step preserves the id sequence. -/
theorem c9_no_deletion_witness :
    memIds (some ⟨"r0", some "r0",
      [("r0", ⟨none, ["n1"], .NO_RESULT, "q", none, none, none, none, none⟩),
       ("n1", ⟨some "r0", [], .NO_RESULT, "s", none, none, none, none,
         none⟩)]⟩) "r0" ∧
    (stepList 3 (fun _ => true) [c9ExNode]).map NodeInfo.nodeId =
      [c9ExNode].map NodeInfo.nodeId := by
  constructor
  · exact c9_no_deletion.1 (some c9ExTree) (.addNode "r0" "n1" "s") _ rfl "r0"
      (by show "r0" ∈ idsOf c9ExTree; decide)
  · exact c9_no_deletion.2 3 (fun _ => true) [c9ExNode]

/-- Witness for C10 on a concrete pair of writes to one key. -/
theorem c10_varname_stamp_witness :
    ((runSets emptyKV c10ExWrites).entries =
      c10ExWrites.map (fun w => mkEntry w.1 w.2.1 w.2.2)) ∧
    (∀ e ∈ (runSets emptyKV c10ExWrites).entries,
      ∃ k, assocLookup e.metadata "variable_name" = some k ∧
        ∃ v md, e = mkEntry k v md) ∧
    (∀ k, ∀ e ∈ (runSets emptyKV c10ExWrites).entries,
      assocLookup e.metadata "variable_name" = some k →
        e ∈ kvQuery false ⟨.str "", .TEXT, [("variable_name", k)]⟩
            (runSets emptyKV c10ExWrites)) :=
  c10_varname_stamp c10ExWrites
